import Mathlib

/-!
Verification of the ORF Scanner of "The Reading Frame"
(src/pages/1_Translation_Engine.py, function `find_orfs` and its helpers).

The scanner works over cleaned nucleotide sequences (alphabet A/C/G/T/N,
enforced upstream by `clean_dna_sequence`).  For each forward frame offset it
drops the incomplete trailing codon, translates codon-by-codon via the
Biopython `Seq.translate(table=genetic_code)` call, and extracts protein runs
matching the regular expression `M[^*]*` with `re.finditer` (leftmost,
greedy, non-overlapping).  Runs of at least `min_length` amino acids are
emitted as ORF records.
-/

namespace ReadingFrame

/-- Nucleotide alphabet after upstream cleaning: `clean_dna_sequence`
keeps exactly the characters A, T, G, C, N. -/
inductive Nuc where
  | A | C | G | T | N
deriving DecidableEq, Repr

/-- A genetic-code table on unambiguous codons: three bases to one
amino-acid character (stop = `*`). -/
abbrev CodonTable := Nuc → Nuc → Nuc → Char

/-- NCBI translation table 1 (Standard), as in Biopython's
`Bio.Data.CodonTable`. -/
def stdTable : CodonTable
  | .T, .T, .T => 'F'
  | .T, .T, .C => 'F'
  | .T, .T, .A => 'L'
  | .T, .T, .G => 'L'
  | .T, .C, _  => 'S'
  | .T, .A, .T => 'Y'
  | .T, .A, .C => 'Y'
  | .T, .A, .A => '*'
  | .T, .A, .G => '*'
  | .T, .G, .T => 'C'
  | .T, .G, .C => 'C'
  | .T, .G, .A => '*'
  | .T, .G, .G => 'W'
  | .C, .T, _  => 'L'
  | .C, .C, _  => 'P'
  | .C, .A, .T => 'H'
  | .C, .A, .C => 'H'
  | .C, .A, .A => 'Q'
  | .C, .A, .G => 'Q'
  | .C, .G, _  => 'R'
  | .A, .T, .G => 'M'
  | .A, .T, _  => 'I'
  | .A, .C, _  => 'T'
  | .A, .A, .T => 'N'
  | .A, .A, .C => 'N'
  | .A, .A, .A => 'K'
  | .A, .A, .G => 'K'
  | .A, .G, .T => 'S'
  | .A, .G, .C => 'S'
  | .A, .G, .A => 'R'
  | .A, .G, .G => 'R'
  | .G, .T, _  => 'V'
  | .G, .C, _  => 'A'
  | .G, .A, .T => 'D'
  | .G, .A, .C => 'D'
  | .G, .A, .A => 'E'
  | .G, .A, .G => 'E'
  | .G, .G, _  => 'G'
  | _, _, _ => 'X'

/-- NCBI table 2 (Vertebrate Mitochondrial): AGA/AGG are stops,
ATA codes M, TGA codes W; otherwise as the standard table. -/
def table2 : CodonTable
  | .A, .G, .A => '*'
  | .A, .G, .G => '*'
  | .A, .T, .A => 'M'
  | .T, .G, .A => 'W'
  | a, b, c => stdTable a b c

/-- NCBI table 3 (Yeast Mitochondrial): ATA codes M, CTN codes T,
TGA codes W; otherwise as the standard table. -/
def table3 : CodonTable
  | .A, .T, .A => 'M'
  | .C, .T, _  => 'T'
  | .T, .G, .A => 'W'
  | a, b, c => stdTable a b c

/-- NCBI table 5 (Invertebrate Mitochondrial): AGA/AGG code S,
ATA codes M, TGA codes W; otherwise as the standard table. -/
def table5 : CodonTable
  | .A, .G, .A => 'S'
  | .A, .G, .G => 'S'
  | .A, .T, .A => 'M'
  | .T, .G, .A => 'W'
  | a, b, c => stdTable a b c

/-- NCBI table 11 (Bacterial/Archaeal/Plant Plastid): identical to the
standard table codon-for-codon (it differs only in permitted start codons,
which `translate` without `cds=True` ignores). -/
def table11 : CodonTable := stdTable

/-- NCBI table 12 (Alternative Yeast Nuclear): CTG codes S; otherwise
standard. -/
def table12 : CodonTable
  | .C, .T, .G => 'S'
  | a, b, c => stdTable a b c

/-- The genetic-code registry consulted by Biopython's
`Seq.translate(table=id)`, restricted to the tables this development refers
to: the five ids enumerated by the application's `genetic_code_map`
(1, 2, 3, 11, 12) plus table 5, an id Biopython also supports although the
application never offers it.  `Bio.Data.CodonTable` defines further ids
(4, 6, 9, 10, 13-16, 21-33); they are omitted because no statement below
depends on them. -/
def bioTables : Int → Option CodonTable := fun id =>
  if id = 1 then some stdTable
  else if id = 2 then some table2
  else if id = 3 then some table3
  else if id = 5 then some table5
  else if id = 11 then some table11
  else if id = 12 then some table12
  else none

/-- The possible resolutions of one (possibly ambiguous) base: N stands for
any of the four unambiguous bases. -/
def resolutions : Nuc → List Nuc
  | .N => [.A, .C, .G, .T]
  | b => [b]

/-- Biopython's ambiguous-codon translation, restricted to the N-only
alphabet produced by `clean_dna_sequence`: if every resolution of the codon
yields the same symbol, that symbol is used; if every resolution is a stop,
the stop symbol is used; otherwise the placeholder `X` is emitted. -/
def ambTranslate (tbl : CodonTable) (a b c : Nuc) : Char :=
  let vals := (resolutions a).flatMap fun x =>
    (resolutions b).flatMap fun y =>
      (resolutions c).map fun z => tbl x y z
  match vals with
  | [] => 'X'
  | v :: rest =>
      if rest.all (· = v) then v
      else if vals.all (· = '*') then '*'
      else 'X'

/-- Split a nucleotide list into consecutive codons, discarding the
incomplete trailing codon — the `frame_seq[:len(frame_seq) - (len(frame_seq) % 3)]`
truncation of `find_orfs`. -/
def codons : List Nuc → List (Nuc × Nuc × Nuc)
  | a :: b :: c :: rest => (a, b, c) :: codons rest
  | _ => []

/-- `str(frame_seq.translate(table=genetic_code))` for the frame subsequence
starting at offset `frame`: translate codon by codon after truncation. -/
def translateFrame (tbl : CodonTable) (s : List Nuc) (frame : Nat) : List Char :=
  (codons (s.drop frame)).map fun t => ambTranslate tbl t.1 t.2.1 t.2.2

/-- `re.finditer(r'M[^*]*', translated)`: scan left to right; at each `M`
not already consumed, match greedily through every following non-stop
character, record the match with its start index, and resume scanning at
the position immediately after the match end (matches are non-overlapping).
Returns the list of (start index, matched run) pairs in scan order. -/
def findMatches (l : List Char) (i : Nat) : List (Nat × List Char) :=
  match l with
  | [] => []
  | c :: rest =>
    if c = 'M' then
      let body := rest.takeWhile fun x => x ≠ '*'
      (i, c :: body) :: findMatches (rest.drop body.length) (i + 1 + body.length)
    else
      findMatches rest (i + 1)
termination_by l.length
decreasing_by
  · simp only [List.length_cons, List.length_drop]
    omega
  · simp only [List.length_cons]
    omega

/-- An ORF record, as built by `find_orfs`:
`{'frame': ..., 'start': ..., 'end': ..., 'length_aa': ..., 'sequence': ...}`. -/
structure ORF where
  frame : String
  start : Nat
  «end» : Nat
  length_aa : Nat
  sequence : List Char
deriving DecidableEq, Repr

/-- The frame label the scanner attaches: `f'+{frame + 1}'`. -/
def frameLabel (frame : Nat) : String := "+" ++ toString (frame + 1)

/-- The record `find_orfs` appends for a regex match starting at protein
index `p` with matched run `m` in frame offset `frame`:
`start_nt = frame + match.start() * 3`, `end_nt = frame + match.end() * 3`,
where `match.end() = match.start() + len(match.group())`. -/
def orfRecord (frame p : Nat) (m : List Char) : ORF where
  frame := frameLabel frame
  start := frame + p * 3
  «end» := frame + (p + m.length) * 3
  length_aa := m.length
  sequence := m

/-- The ORFs contributed by one frame offset: every match of `M[^*]*` in
the translated frame whose amino-acid count reaches `min_length`
(`if len(orf_protein) >= min_length`), in scan order. -/
def frameOrfs (tbl : CodonTable) (min_length : Int) (s : List Nuc)
    (frame : Nat) : List ORF :=
  (findMatches (translateFrame tbl s frame) 0).filterMap fun pm =>
    if min_length ≤ (pm.2.length : Int) then some (orfRecord frame pm.1 pm.2)
    else none

/-- The error escaping `find_orfs` when Biopython's `translate` is handed a
table id absent from its registry (a `ValueError` raised during table
resolution, before any codon is read); no table is ever silently
substituted. -/
inductive TransError where
  | badTable (id : Int)
deriving DecidableEq, Repr

/-- `find_orfs(sequence, genetic_code, min_length)`: resolve the genetic
code (the `translate` call of the first frame raises if the id is unknown,
before any ORF is produced), then concatenate the ORFs of the three forward
frames in frame order `+1, +2, +3`.  The registry `tables` stands for
Biopython's codon-table registry consulted by `translate(table=...)`;
`bioTables` is the fragment of that registry this development refers to. -/
def find_orfs (tables : Int → Option CodonTable) (sequence : List Nuc)
    (genetic_code : Int) (min_length : Int) : Except TransError (List ORF) :=
  match tables genetic_code with
  | none => Except.error (TransError.badTable genetic_code)
  | some tbl =>
      Except.ok (frameOrfs tbl min_length sequence 0 ++
        frameOrfs tbl min_length sequence 1 ++ frameOrfs tbl min_length sequence 2)

/-! Basic lemmas about the match scanner. -/

theorem findMatches_nil (i : Nat) : findMatches [] i = [] := by
  rw [findMatches]

theorem findMatches_consM (rest : List Char) (i : Nat) :
    findMatches ('M' :: rest) i =
      (i, 'M' :: rest.takeWhile fun x => x ≠ '*') ::
        findMatches (rest.drop (rest.takeWhile fun x => x ≠ '*').length)
          (i + 1 + (rest.takeWhile fun x => x ≠ '*').length) := by
  rw [findMatches]
  simp

theorem findMatches_cons (c : Char) (rest : List Char) (i : Nat)
    (h : ¬ c = 'M') :
    findMatches (c :: rest) i = findMatches rest (i + 1) := by
  rw [findMatches]
  simp [h]

/-- Every reported match starts at or after the scan origin. -/
theorem findMatches_start_ge (l : List Char) (i : Nat) :
    ∀ p ∈ findMatches l i, i ≤ p.1 := by
  induction l, i using findMatches.induct with
  | case1 i => simp [findMatches_nil]
  | case2 i rest body ih =>
      intro p hp
      rw [findMatches_consM] at hp
      rcases List.mem_cons.mp hp with h | h
      · subst h; simp
      · have := ih p h
        omega
  | case3 i c rest hc ih =>
      intro p hp
      rw [findMatches_cons c rest i hc] at hp
      have := ih p hp
      omega

/-- If `takeWhile` stops before the end of the list, the element at the
stopping position fails the predicate. -/
theorem takeWhile_stop {α : Type} (p : α → Bool) :
    ∀ l : List α, (l.takeWhile p).length < l.length →
      ∃ a, l[(l.takeWhile p).length]? = some a ∧ p a = false := by
  intro l
  induction l with
  | nil => simp
  | cons x xs ih =>
      by_cases hx : p x
      · intro hlen
        simp only [List.takeWhile_cons, if_pos hx, List.length_cons] at hlen ⊢
        simpa using ih (by omega)
      · intro _
        refine ⟨x, ?_, ?_⟩
        · simp only [List.takeWhile_cons, if_neg hx]
          simp
        · simpa using hx

/-- Every reported match is the start symbol followed by a stop-free body. -/
theorem findMatches_shape (l : List Char) (i : Nat) :
    ∀ pm ∈ findMatches l i, ∃ body, pm.2 = 'M' :: body ∧ '*' ∉ body := by
  induction l, i using findMatches.induct with
  | case1 i => simp [findMatches_nil]
  | case2 i rest body ih =>
      intro pm hpm
      rw [findMatches_consM] at hpm
      rcases List.mem_cons.mp hpm with h | h
      · subst h
        refine ⟨_, rfl, fun hmem => ?_⟩
        have := List.mem_takeWhile_imp hmem
        simp at this
      · exact ih pm h
  | case3 i c rest hc ih =>
      intro pm hpm
      rw [findMatches_cons c rest i hc] at hpm
      exact ih pm hpm

/-- Every reported match is the slice of the scanned list at the reported
position (positions counted from the scan origin `i`). -/
theorem findMatches_slice (l : List Char) (i : Nat) :
    ∀ pm ∈ findMatches l i, pm.1 - i + pm.2.length ≤ l.length ∧
      (l.drop (pm.1 - i)).take pm.2.length = pm.2 := by
  induction l, i using findMatches.induct with
  | case1 i => simp [findMatches_nil]
  | case2 i rest body ih =>
      have hbodydef : body = rest.takeWhile fun x => x ≠ '*' := rfl
      clear_value body
      intro pm hpm
      rw [findMatches_consM, ← hbodydef] at hpm
      rcases List.mem_cons.mp hpm with h | h
      · subst h
        have hpre : body = rest.take body.length := by
          rw [hbodydef]
          exact List.prefix_iff_eq_take.mp (List.takeWhile_prefix _)
        have hlen : body.length ≤ rest.length := by
          rw [hbodydef]
          exact (List.takeWhile_prefix _).length_le
        constructor
        · simp only [Nat.sub_self, List.length_cons]
          omega
        · simp only [Nat.sub_self, List.drop_zero, List.length_cons,
            List.take_succ_cons]
          rw [← hpre]
      · have hstart := findMatches_start_ge _ _ pm h
        obtain ⟨hlen2, hslice⟩ := ih pm h
        have hblle : body.length ≤ rest.length := by
          rw [hbodydef]
          exact (List.takeWhile_prefix _).length_le
        have hk : pm.1 - i = body.length + (pm.1 - (i + 1 + body.length)) + 1 := by
          omega
        constructor
        · simp only [List.length_drop] at hlen2
          simp only [List.length_cons]
          omega
        · rw [List.drop_drop] at hslice
          rw [hk, List.drop_succ_cons]
          exact hslice
  | case3 i c rest hc ih =>
      intro pm hpm
      rw [findMatches_cons c rest i hc] at hpm
      have hstart := findMatches_start_ge _ _ pm hpm
      obtain ⟨hlen, hslice⟩ := ih pm hpm
      have hk : pm.1 - i = (pm.1 - (i + 1)) + 1 := by omega
      constructor
      · simp only [List.length_cons]
        omega
      · rw [hk, List.drop_succ_cons]
        exact hslice

/-- Matches are reported in scan order and never overlap: each match ends
at or before the next one starts. -/
theorem findMatches_pairwise (l : List Char) (i : Nat) :
    (findMatches l i).Pairwise fun a b => a.1 + a.2.length ≤ b.1 := by
  induction l, i using findMatches.induct with
  | case1 i => simp [findMatches_nil]
  | case2 i rest body ih =>
      rw [findMatches_consM]
      refine List.Pairwise.cons (fun b hb => ?_) ih
      have := findMatches_start_ge _ _ b hb
      simp only [List.length_cons]
      omega
  | case3 i c rest hc ih =>
      rw [findMatches_cons c rest i hc]
      exact ih

/-- Every occurrence of the start symbol is covered by the span of some
reported match: an `M` strictly inside an earlier match is absorbed into
that match rather than starting one of its own. -/
theorem findMatches_cover (l : List Char) (i : Nat) :
    ∀ k, l[k]? = some 'M' →
      ∃ pm ∈ findMatches l i, pm.1 ≤ i + k ∧ i + k < pm.1 + pm.2.length := by
  induction l, i using findMatches.induct with
  | case1 i =>
      intro k hk
      simp at hk
  | case2 i rest body ih =>
      have hbodydef : body = rest.takeWhile fun x => x ≠ '*' := rfl
      clear_value body
      intro k hk
      by_cases hcase : k ≤ body.length
      · refine ⟨(i, 'M' :: body), ?_, ?_, ?_⟩
        · rw [findMatches_consM, ← hbodydef]
          exact List.mem_cons_self _ _
        · omega
        · simp only [List.length_cons]
          omega
      · push_neg at hcase
        have hk1 : rest[k - 1]? = some 'M' := by
          rw [show k = (k - 1) + 1 by omega] at hk
          simpa using hk
        rcases Nat.eq_or_lt_of_le (show body.length ≤ k - 1 by omega) with heq | hlt
        · exfalso
          rcases Nat.lt_or_ge body.length rest.length with hl | hl
          · obtain ⟨a, ha, hpa⟩ := takeWhile_stop (fun x => x ≠ '*') rest
              (by rw [← hbodydef] at *; omega)
            rw [← hbodydef] at ha
            rw [heq, hk1] at ha
            simp at ha hpa
            simp [← ha] at hpa
          · rw [List.getElem?_eq_none (by omega)] at hk1
            simp at hk1
        · have hdrop : (rest.drop body.length)[k - 1 - body.length]? = some 'M' := by
            rw [List.getElem?_drop,
              show body.length + (k - 1 - body.length) = k - 1 by omega]
            exact hk1
          obtain ⟨pm, hpm, h1, h2⟩ := ih (k - 1 - body.length) hdrop
          refine ⟨pm, ?_, by omega, by omega⟩
          rw [findMatches_consM, ← hbodydef]
          exact List.mem_cons_of_mem _ hpm
  | case3 i c rest hc ih =>
      intro k hk
      match k with
      | 0 =>
          rw [List.getElem?_cons_zero] at hk
          exact absurd (Option.some_injective _ hk) hc
      | k + 1 =>
          rw [List.getElem?_cons_succ] at hk
          obtain ⟨pm, hpm, h1, h2⟩ := ih k hk
          refine ⟨pm, ?_, by omega, by omega⟩
          rw [findMatches_cons c rest i hc]
          exact hpm

end ReadingFrame


namespace ReadingFrame

/-! Helper lemmas about the embedded scanner. -/

theorem codons_length : ∀ l : List Nuc, (codons l).length = l.length / 3
  | [] => rfl
  | [_] => by
      simp [codons]
  | [_, _] => by
      simp [codons]
  | a :: b :: c :: rest => by
      simp only [codons, List.length_cons, codons_length rest]
      omega

theorem codons_eq_nil : ∀ l : List Nuc, l.length < 3 → codons l = []
  | [], _ => rfl
  | [_], _ => rfl
  | [_, _], _ => rfl
  | _ :: _ :: _ :: _, h => by
      simp only [List.length_cons] at h
      omega

theorem translateFrame_length (tbl : CodonTable) (s : List Nuc) (f : Nat) :
    (translateFrame tbl s f).length = (s.length - f) / 3 := by
  simp [translateFrame, codons_length]

theorem frameOrfs_mem (tbl : CodonTable) (ml : Int) (s : List Nuc) (f : Nat)
    (o : ORF) :
    o ∈ frameOrfs tbl ml s f ↔
      ∃ pm ∈ findMatches (translateFrame tbl s f) 0,
        ml ≤ (pm.2.length : Int) ∧ o = orfRecord f pm.1 pm.2 := by
  simp only [frameOrfs, List.mem_filterMap]
  constructor
  · rintro ⟨pm, hpm, hsome⟩
    by_cases h : ml ≤ (pm.2.length : Int)
    · rw [if_pos h] at hsome
      exact ⟨pm, hpm, h, (Option.some_injective _ hsome).symm⟩
    · rw [if_neg h] at hsome
      cases hsome
  · rintro ⟨pm, hpm, h, rfl⟩
    exact ⟨pm, hpm, by rw [if_pos h]⟩
  
theorem frameOrfs_emit_iff (tbl : CodonTable) (ml : Int) (s : List Nuc)
    (f : Nat) (pm : Nat × List Char)
    (hpm : pm ∈ findMatches (translateFrame tbl s f) 0) :
    orfRecord f pm.1 pm.2 ∈ frameOrfs tbl ml s f ↔ ml ≤ (pm.2.length : Int) := by
  rw [frameOrfs_mem]
  constructor
  · rintro ⟨pm', _, hlen, heq⟩
    have hseq : pm.2 = pm'.2 := congrArg ORF.sequence heq
    rw [hseq]
    exact hlen
  · intro h
    exact ⟨pm, hpm, h, rfl⟩

theorem find_orfs_ok (tables : Int → Option CodonTable) (s : List Nuc)
    (gc ml : Int) (tbl : CodonTable) (h : tables gc = some tbl) :
    find_orfs tables s gc ml =
      Except.ok (frameOrfs tbl ml s 0 ++ frameOrfs tbl ml s 1 ++
        frameOrfs tbl ml s 2) := by
  rw [find_orfs, h]

theorem find_orfs_err (tables : Int → Option CodonTable) (s : List Nuc)
    (gc ml : Int) (h : tables gc = none) :
    find_orfs tables s gc ml = Except.error (TransError.badTable gc) := by
  rw [find_orfs, h]

theorem filterMap_sublist_filterMap {α β : Type} (f g : α → Option β)
    (h : ∀ a b, f a = some b → g a = some b) :
    ∀ l : List α, (l.filterMap f).Sublist (l.filterMap g)
  | [] => List.Sublist.refl _
  | a :: l => by
      rw [List.filterMap_cons, List.filterMap_cons]
      cases hfa : f a with
      | none =>
          cases hga : g a with
          | none => exact filterMap_sublist_filterMap f g h l
          | some b => exact List.Sublist.cons _ (filterMap_sublist_filterMap f g h l)
      | some b =>
          rw [h a b hfa]
          exact List.Sublist.cons₂ _ (filterMap_sublist_filterMap f g h l)

theorem pairwise_filterMap_of_pairwise {α β : Type} (f : α → Option β)
    (R : α → α → Prop) (S : β → β → Prop)
    (h : ∀ a b x y, R a b → f a = some x → f b = some y → S x y) :
    ∀ l : List α, l.Pairwise R → (l.filterMap f).Pairwise S
  | [], _ => by simp
  | a :: l, hp => by
      rw [List.filterMap_cons]
      obtain ⟨ha, hl⟩ := List.pairwise_cons.mp hp
      cases hfa : f a with
      | none => exact pairwise_filterMap_of_pairwise f R S h l hl
      | some x =>
          refine List.Pairwise.cons ?_ (pairwise_filterMap_of_pairwise f R S h l hl)
          intro y hy
          obtain ⟨b, hb, hfb⟩ := List.mem_filterMap.mp hy
          exact h a b x y (ha b hb) hfa hfb

theorem frameOrfs_record_props (tbl : CodonTable) (ml : Int) (s : List Nuc)
    (f : Nat) :
    ∀ o ∈ frameOrfs tbl ml s f,
      o.start ≤ o.«end» ∧ (o.«end» - o.start) % 3 = 0 ∧
      3 ≤ o.«end» - o.start ∧ (o.«end» - o.start) / 3 = o.length_aa ∧
      ml ≤ (o.length_aa : Int) ∧ o.sequence.head? = some 'M' ∧
      '*' ∉ o.sequence := by
  intro o ho
  obtain ⟨pm, hpm, hlen, rfl⟩ := (frameOrfs_mem tbl ml s f o).mp ho
  obtain ⟨body, hbody, hnostop⟩ := findMatches_shape _ _ pm hpm
  have hpos : 1 ≤ pm.2.length := by
    rw [hbody]
    simp
  refine ⟨?_, ?_, ?_, ?_, ?_, ?_, ?_⟩
  · simp only [orfRecord]
    omega
  · simp only [orfRecord]
    omega
  · simp only [orfRecord]
    omega
  · simp only [orfRecord]
    omega
  · simpa [orfRecord] using hlen
  · simp only [orfRecord, hbody, List.head?_cons]
  · simp only [orfRecord, hbody, List.mem_cons]
    rintro (h | h)
    · cases h
    · exact hnostop h

end ReadingFrame

namespace ReadingFrame

/-! Claim theorems. -/

/-- Claim C1 counterexample: in ATGATGGCA, frame +1 translates to "MMA",
whose second start symbol (protein position 1, nucleotide 3) is nested
inside the candidate begun at position 0.  The claim demands that with
min_length 1 this nested start be emitted as its own ORF record, making at
least two frame +1 records; `re.finditer(r'M[^*]*')` is non-overlapping,
so the scanner emits exactly one record, spanning nucleotides [0, 9). -/
theorem nested_start_single_record :
    translateFrame stdTable [.A, .T, .G, .A, .T, .G, .G, .C, .A] 0 =
        ['M', 'M', 'A'] ∧
      find_orfs bioTables [.A, .T, .G, .A, .T, .G, .G, .C, .A] 1 1 =
        Except.ok [ORF.mk "+1" 0 9 3 ['M', 'M', 'A']] ∧
      (frameOrfs stdTable 1 [.A, .T, .G, .A, .T, .G, .G, .C, .A] 0).length = 1 := by
  refine ⟨by decide, ?_, ?_⟩
  · simp [find_orfs, bioTables, frameOrfs, translateFrame, codons, ambTranslate,
      resolutions, stdTable, orfRecord, frameLabel, findMatches]
    rfl
  · simp [frameOrfs, translateFrame, codons, ambTranslate,
      resolutions, stdTable, orfRecord, frameLabel, findMatches]

/-- Claim C1 (amended): candidate discovery is non-overlapping: candidates
are reported in scan order with each one ending at or before the next
begins, every occurrence of the start symbol in the translated frame falls
inside the span of some candidate (a start symbol strictly inside an
earlier candidate is absorbed into it instead of beginning its own
candidate), and a discovered candidate is emitted as its own ORF record
exactly when it meets min_length. -/
theorem scan_candidates_nonoverlapping (tbl : CodonTable) (ml : Int)
    (s : List Nuc) (f : Nat) :
    (findMatches (translateFrame tbl s f) 0).Pairwise
        (fun a b => a.1 + a.2.length ≤ b.1) ∧
      (∀ k, (translateFrame tbl s f)[k]? = some 'M' →
        ∃ pm ∈ findMatches (translateFrame tbl s f) 0,
          pm.1 ≤ k ∧ k < pm.1 + pm.2.length) ∧
      ∀ pm ∈ findMatches (translateFrame tbl s f) 0,
        (orfRecord f pm.1 pm.2 ∈ frameOrfs tbl ml s f ↔
          ml ≤ (pm.2.length : Int)) := by
  refine ⟨findMatches_pairwise _ _, ?_, ?_⟩
  · intro k hk
    simpa using findMatches_cover (translateFrame tbl s f) 0 k hk
  · intro pm hpm
    exact frameOrfs_emit_iff tbl ml s f pm hpm

/-- Claim C1 (amended) witness: in frame +1 of ATGATGGCA the nested start
symbol at protein position 1 is covered by the span of the single candidate
[0, 3). -/
theorem scan_candidates_nonoverlapping_witness :
    (translateFrame stdTable [.A, .T, .G, .A, .T, .G, .G, .C, .A] 0)[1]? =
        some 'M' ∧
      ∃ pm ∈ findMatches
          (translateFrame stdTable [.A, .T, .G, .A, .T, .G, .G, .C, .A] 0) 0,
        pm.1 ≤ 1 ∧ 1 < pm.1 + pm.2.length :=
  ⟨by decide,
    (scan_candidates_nonoverlapping stdTable 1
      [.A, .T, .G, .A, .T, .G, .G, .C, .A] 0).2.1 1 (by decide)⟩

/-- Claim C2: every ORF record emitted by `find_orfs` has a nucleotide span
divisible by 3 and of at least one codon, `length_aa` equal to the span in
codons and at least `min_length`, and a protein that begins with the start
symbol `M` and contains no stop symbol `*`. -/
theorem orf_record_invariants (tables : Int → Option CodonTable)
    (s : List Nuc) (gc ml : Int) (orfs : List ORF)
    (h : find_orfs tables s gc ml = Except.ok orfs) :
    ∀ o ∈ orfs, (o.«end» - o.start) % 3 = 0 ∧ 3 ≤ o.«end» - o.start ∧
      (o.«end» - o.start) / 3 = o.length_aa ∧ ml ≤ (o.length_aa : Int) ∧
      o.sequence.head? = some 'M' ∧ '*' ∉ o.sequence := by
  intro o ho
  cases htab : tables gc with
  | none =>
      rw [find_orfs_err tables s gc ml htab] at h
      cases h
  | some tbl =>
      rw [find_orfs_ok tables s gc ml tbl htab] at h
      injection h with h
      subst h
      rcases List.mem_append.mp ho with h01 | h2
      · rcases List.mem_append.mp h01 with h0 | h1
        · obtain ⟨-, p1, p2, p3, p4, p5, p6⟩ :=
            frameOrfs_record_props tbl ml s 0 o h0
          exact ⟨p1, p2, p3, p4, p5, p6⟩
        · obtain ⟨-, p1, p2, p3, p4, p5, p6⟩ :=
            frameOrfs_record_props tbl ml s 1 o h1
          exact ⟨p1, p2, p3, p4, p5, p6⟩
      · obtain ⟨-, p1, p2, p3, p4, p5, p6⟩ :=
          frameOrfs_record_props tbl ml s 2 o h2
        exact ⟨p1, p2, p3, p4, p5, p6⟩

/-- Claim C2 witness: the record emitted for ATGATGGCA with the standard
code and min_length 1 satisfies every invariant. -/
theorem orf_record_invariants_witness :
    find_orfs bioTables [.A, .T, .G, .A, .T, .G, .G, .C, .A] 1 1 =
        Except.ok [ORF.mk "+1" 0 9 3 ['M', 'M', 'A']] ∧
      ((9 : Nat) - 0) % 3 = 0 ∧ 3 ≤ (9 : Nat) - 0 ∧ ((9 : Nat) - 0) / 3 = 3 ∧
      (1 : Int) ≤ ((3 : Nat) : Int) ∧
      (['M', 'M', 'A'] : List Char).head? = some 'M' ∧
      '*' ∉ (['M', 'M', 'A'] : List Char) := by
  have hok : find_orfs bioTables [.A, .T, .G, .A, .T, .G, .G, .C, .A] 1 1 =
      Except.ok [ORF.mk "+1" 0 9 3 ['M', 'M', 'A']] := by
    simp [find_orfs, bioTables, frameOrfs, translateFrame, codons, ambTranslate,
      resolutions, stdTable, orfRecord, frameLabel, findMatches]
    rfl
  refine ⟨hok, ?_⟩
  exact orf_record_invariants bioTables [.A, .T, .G, .A, .T, .G, .G, .C, .A]
    1 1 [ORF.mk "+1" 0 9 3 ['M', 'M', 'A']] hok
    (ORF.mk "+1" 0 9 3 ['M', 'M', 'A']) (by simp)

end ReadingFrame

namespace ReadingFrame

/-- Claim C3: within a single frame the emitted ORF records occupy pairwise
disjoint, nonempty nucleotide intervals [start, end) in strictly increasing
start order; consequently no record starts strictly inside the span of an
earlier record of the same frame. -/
theorem frame_orfs_disjoint_increasing (tbl : CodonTable) (ml : Int)
    (s : List Nuc) (f : Nat) :
    (frameOrfs tbl ml s f).Pairwise
        (fun o1 o2 => o1.start < o2.start ∧ o1.«end» ≤ o2.start) ∧
      ∀ o ∈ frameOrfs tbl ml s f, o.start < o.«end» := by
  constructor
  · have hpw' : (findMatches (translateFrame tbl s f) 0).Pairwise
        (fun a b => a.1 + a.2.length ≤ b.1 ∧ 1 ≤ a.2.length) := by
      refine List.Pairwise.imp_of_mem ?_
        (findMatches_pairwise (translateFrame tbl s f) 0)
      intro a b ha _ hR
      obtain ⟨body, hbody, -⟩ := findMatches_shape _ _ a ha
      refine ⟨hR, ?_⟩
      rw [hbody]
      simp
    refine pairwise_filterMap_of_pairwise _ _ _ ?_ _ hpw'
    intro a b x y hR hfa hfb
    have hx : x = orfRecord f a.1 a.2 := by
      by_cases h1 : ml ≤ (a.2.length : Int)
      · rw [if_pos h1] at hfa
        exact (Option.some_injective _ hfa).symm
      · rw [if_neg h1] at hfa
        cases hfa
    have hy : y = orfRecord f b.1 b.2 := by
      by_cases h2 : ml ≤ (b.2.length : Int)
      · rw [if_pos h2] at hfb
        exact (Option.some_injective _ hfb).symm
      · rw [if_neg h2] at hfb
        cases hfb
    subst hx
    subst hy
    simp only [orfRecord]
    constructor
    · omega
    · omega
  · intro o ho
    obtain ⟨pm, hpm, -, rfl⟩ := (frameOrfs_mem tbl ml s f o).mp ho
    obtain ⟨body, hbody, -⟩ := findMatches_shape _ _ pm hpm
    have : 1 ≤ pm.2.length := by
      rw [hbody]
      simp
    simp only [orfRecord]
    omega

/-- Claim C3 witness: ATGTAAATGGCC (standard code, min_length 1) emits two
frame +1 records, "M" at [0,3) and "MA" at [6,12), and the theorem applied
there yields the disjoint strictly increasing layout for the concrete
pair. -/
theorem frame_orfs_disjoint_increasing_witness :
    frameOrfs stdTable 1 [.A, .T, .G, .T, .A, .A, .A, .T, .G, .G, .C, .C] 0 =
        [ORF.mk "+1" 0 3 1 ['M'], ORF.mk "+1" 6 12 2 ['M', 'A']] ∧
      (0 : Nat) < 6 ∧ (3 : Nat) ≤ 6 ∧ (0 : Nat) < 3 := by
  have hfr : frameOrfs stdTable 1 [.A, .T, .G, .T, .A, .A, .A, .T, .G, .G, .C, .C] 0 =
      [ORF.mk "+1" 0 3 1 ['M'], ORF.mk "+1" 6 12 2 ['M', 'A']] := by
    simp [frameOrfs, translateFrame, codons, ambTranslate,
      resolutions, stdTable, orfRecord, frameLabel, findMatches]
    rfl
  have hthm := frame_orfs_disjoint_increasing stdTable 1
    [.A, .T, .G, .T, .A, .A, .A, .T, .G, .G, .C, .C] 0
  rw [hfr] at hthm
  obtain ⟨hpw, hmem⟩ := hthm
  have hrel := (List.pairwise_cons.mp hpw).1 (ORF.mk "+1" 6 12 2 ['M', 'A'])
    (by simp)
  exact ⟨hfr, hrel.1, hrel.2, hmem (ORF.mk "+1" 0 3 1 ['M']) (by simp)⟩

end ReadingFrame

namespace ReadingFrame

/-- Claim C4: frame offset f translates exactly the subsequence from f
truncated to whole codons — floor((n-f)/3) protein symbols, the incomplete
trailing codon silently discarded — and every emitted record corresponds to
a candidate at protein index range [i, j): frame label "+(f+1)" (built by
`frameLabel`), nucleotide start f+i*3, exclusive end f+j*3, amino-acid
length j-i, and protein equal to the translated frame's substring [i, j). -/
theorem frame_translation_coordinates (tbl : CodonTable) (s : List Nuc)
    (f : Nat) (ml : Int) :
    (translateFrame tbl s f).length = (s.length - f) / 3 ∧
      ∀ o ∈ frameOrfs tbl ml s f, ∃ i j, i < j ∧
        j ≤ (translateFrame tbl s f).length ∧
        o.frame = frameLabel f ∧ o.start = f + i * 3 ∧ o.«end» = f + j * 3 ∧
        o.length_aa = j - i ∧
        o.sequence = ((translateFrame tbl s f).drop i).take (j - i) := by
  refine ⟨translateFrame_length tbl s f, ?_⟩
  intro o ho
  obtain ⟨pm, hpm, -, rfl⟩ := (frameOrfs_mem tbl ml s f o).mp ho
  obtain ⟨body, hbody, -⟩ := findMatches_shape _ _ pm hpm
  obtain ⟨hle, hslice⟩ := findMatches_slice _ _ pm hpm
  simp only [Nat.sub_zero] at hle hslice
  refine ⟨pm.1, pm.1 + pm.2.length, ?_, by omega, rfl, rfl, rfl, ?_, ?_⟩
  · have : 1 ≤ pm.2.length := by
      rw [hbody]
      simp
    omega
  · simp only [orfRecord]
    omega
  · rw [show pm.1 + pm.2.length - pm.1 = pm.2.length by omega]
    exact hslice.symm

/-- Claim C4 witness: for ATGATGGCAC (10 nt) and frame offset 1 the
translated frame has floor((10-1)/3) = 3 symbols, and the record emitted in
frame offset 0 of ATGATGGCA sits at protein range [0, 3) with the stated
coordinates. -/
theorem frame_translation_coordinates_witness :
    (translateFrame stdTable [.A, .T, .G, .A, .T, .G, .G, .C, .A, .C] 1).length =
        (10 - 1) / 3 ∧
      ∃ i j, i < j ∧
        j ≤ (translateFrame stdTable [.A, .T, .G, .A, .T, .G, .G, .C, .A] 0).length ∧
        (ORF.mk "+1" 0 9 3 ['M', 'M', 'A']).frame = frameLabel 0 ∧
        (ORF.mk "+1" 0 9 3 ['M', 'M', 'A']).start = 0 + i * 3 ∧
        (ORF.mk "+1" 0 9 3 ['M', 'M', 'A']).«end» = 0 + j * 3 ∧
        (ORF.mk "+1" 0 9 3 ['M', 'M', 'A']).length_aa = j - i ∧
        (ORF.mk "+1" 0 9 3 ['M', 'M', 'A']).sequence =
          ((translateFrame stdTable [.A, .T, .G, .A, .T, .G, .G, .C, .A] 0).drop i).take
            (j - i) := by
  constructor
  · exact (frame_translation_coordinates stdTable
      [.A, .T, .G, .A, .T, .G, .G, .C, .A, .C] 1 1).1
  · have hfr : frameOrfs stdTable 1 [.A, .T, .G, .A, .T, .G, .G, .C, .A] 0 =
        [ORF.mk "+1" 0 9 3 ['M', 'M', 'A']] := by
      simp [frameOrfs, translateFrame, codons, ambTranslate,
        resolutions, stdTable, orfRecord, frameLabel, findMatches]
      rfl
    exact (frame_translation_coordinates stdTable
      [.A, .T, .G, .A, .T, .G, .G, .C, .A] 0 1).2
      (ORF.mk "+1" 0 9 3 ['M', 'M', 'A']) (by rw [hfr]; simp)

/-- Claim C5: when the genetic code resolves, `find_orfs` returns exactly
the concatenation of the three forward frame scans in frame-major order
(+1 first, then +2, then +3), with no cross-frame deduplication, sorting or
overlap resolution. -/
theorem find_orfs_frame_major (tables : Int → Option CodonTable)
    (s : List Nuc) (gc ml : Int) (tbl : CodonTable)
    (h : tables gc = some tbl) :
    find_orfs tables s gc ml =
      Except.ok (frameOrfs tbl ml s 0 ++ frameOrfs tbl ml s 1 ++
        frameOrfs tbl ml s 2) :=
  find_orfs_ok tables s gc ml tbl h

/-- Claim C5 witness: the standard-code registry entry for id 1 resolves
and the frame-major concatenation is returned for ATGATGGCA. -/
theorem find_orfs_frame_major_witness :
    bioTables 1 = some stdTable ∧
      find_orfs bioTables [.A, .T, .G, .A, .T, .G, .G, .C, .A] 1 1 =
        Except.ok
          (frameOrfs stdTable 1 [.A, .T, .G, .A, .T, .G, .G, .C, .A] 0 ++
            frameOrfs stdTable 1 [.A, .T, .G, .A, .T, .G, .G, .C, .A] 1 ++
            frameOrfs stdTable 1 [.A, .T, .G, .A, .T, .G, .G, .C, .A] 2) :=
  ⟨rfl, find_orfs_frame_major bioTables [.A, .T, .G, .A, .T, .G, .G, .C, .A]
    1 1 stdTable rfl⟩

end ReadingFrame

namespace ReadingFrame

/-- Claim C6: the min_length filter is inclusive: a discovered candidate is
emitted as a record if and only if its amino-acid count (its matched run's
length, which counts the leading start symbol) is at least min_length. -/
theorem min_length_filter_inclusive (tbl : CodonTable) (ml : Int)
    (s : List Nuc) (f : Nat) (pm : Nat × List Char)
    (hpm : pm ∈ findMatches (translateFrame tbl s f) 0) :
    orfRecord f pm.1 pm.2 ∈ frameOrfs tbl ml s f ↔ ml ≤ (pm.2.length : Int) :=
  frameOrfs_emit_iff tbl ml s f pm hpm

/-- Claim C6 witness: the 3-amino-acid candidate of ATGATGGCA is retained
at min_length exactly 3 (inclusive boundary) and the emission criterion is
the length comparison. -/
theorem min_length_filter_inclusive_witness :
    (0, ['M', 'M', 'A']) ∈
        findMatches (translateFrame stdTable [.A, .T, .G, .A, .T, .G, .G, .C, .A] 0) 0 ∧
      orfRecord 0 0 ['M', 'M', 'A'] ∈
        frameOrfs stdTable 3 [.A, .T, .G, .A, .T, .G, .G, .C, .A] 0 := by
  have htr : translateFrame stdTable [.A, .T, .G, .A, .T, .G, .G, .C, .A] 0 =
      ['M', 'M', 'A'] := by
    decide
  have hmem : (0, ['M', 'M', 'A']) ∈
      findMatches (translateFrame stdTable [.A, .T, .G, .A, .T, .G, .G, .C, .A] 0) 0 := by
    rw [htr]
    simp [findMatches]
  refine ⟨hmem, ?_⟩
  exact (min_length_filter_inclusive stdTable 3
    [.A, .T, .G, .A, .T, .G, .G, .C, .A] 0 (0, ['M', 'M', 'A']) hmem).mpr
    (by decide)

/-- Claim C7: raising min_length never adds ORFs: for m1 ≤ m2 the scan with
m2 succeeds exactly when the scan with m1 does, and its result is an
order-preserving sublist (hence no longer) of the result with m1. -/
theorem min_length_monotone (tables : Int → Option CodonTable)
    (s : List Nuc) (gc m1 m2 : Int) (h12 : m1 ≤ m2) (l2 : List ORF)
    (h2 : find_orfs tables s gc m2 = Except.ok l2) :
    ∃ l1, find_orfs tables s gc m1 = Except.ok l1 ∧ l2.Sublist l1 ∧
      l2.length ≤ l1.length := by
  cases htab : tables gc with
  | none =>
      rw [find_orfs_err tables s gc m2 htab] at h2
      cases h2
  | some tbl =>
      rw [find_orfs_ok tables s gc m2 tbl htab] at h2
      injection h2 with h2
      subst h2
      have hf : ∀ f, (frameOrfs tbl m2 s f).Sublist (frameOrfs tbl m1 s f) := by
        intro f
        apply filterMap_sublist_filterMap
        intro pm o hpm
        by_cases h : m2 ≤ (pm.2.length : Int)
        · rw [if_pos h] at hpm
          rw [if_pos (le_trans h12 h)]
          exact hpm
        · rw [if_neg h] at hpm
          cases hpm
      have hsub := ((hf 0).append (hf 1)).append (hf 2)
      exact ⟨_, find_orfs_ok tables s gc m1 tbl htab, hsub, hsub.length_le⟩

/-- Claim C7 witness: for ATGATGGCA the scan at min_length 5 returns the
empty list, a sublist of the scan at min_length 1. -/
theorem min_length_monotone_witness :
    (1 : Int) ≤ 5 ∧
      find_orfs bioTables [.A, .T, .G, .A, .T, .G, .G, .C, .A] 1 5 =
        Except.ok [] ∧
      ∃ l1, find_orfs bioTables [.A, .T, .G, .A, .T, .G, .G, .C, .A] 1 1 =
        Except.ok l1 ∧ List.Sublist [] l1 ∧ List.length ([] : List ORF) ≤ l1.length := by
  have hok5 : find_orfs bioTables [.A, .T, .G, .A, .T, .G, .G, .C, .A] 1 5 =
      Except.ok [] := by
    simp [find_orfs, bioTables, frameOrfs, translateFrame, codons, ambTranslate,
      resolutions, stdTable, orfRecord, frameLabel, findMatches]
  exact ⟨by decide, hok5,
    min_length_monotone bioTables [.A, .T, .G, .A, .T, .G, .G, .C, .A] 1 1 5
      (by decide) [] hok5⟩

/-- Claim C8: a sequence shorter than one codon yields the empty list for
every frame — `find_orfs` returns ok [] rather than an error — for every
genetic-code id the translator's registry resolves. -/
theorem short_sequence_yields_empty (tables : Int → Option CodonTable)
    (s : List Nuc) (gc ml : Int) (tbl : CodonTable)
    (htab : tables gc = some tbl) (hlen : s.length < 3) :
    find_orfs tables s gc ml = Except.ok [] ∧
      ∀ f, frameOrfs tbl ml s f = [] := by
  have hframe : ∀ f, frameOrfs tbl ml s f = [] := by
    intro f
    have htr : translateFrame tbl s f = [] := by
      unfold translateFrame
      rw [codons_eq_nil]
      · rfl
      · have hd : (s.drop f).length = s.length - f := by simp
        omega
    simp [frameOrfs, htr, findMatches_nil]
  constructor
  · rw [find_orfs_ok tables s gc ml tbl htab]
    simp [hframe]
  · exact hframe

/-- Claim C8 witness: the single-nucleotide sequence A with the standard
code and min_length 10 yields ok [] and an empty frame scan. -/
theorem short_sequence_yields_empty_witness :
    bioTables 1 = some stdTable ∧ List.length [Nuc.A] < 3 ∧
      find_orfs bioTables [Nuc.A] 1 10 = Except.ok [] ∧
      frameOrfs stdTable 10 [Nuc.A] 0 = [] := by
  have h := short_sequence_yields_empty bioTables [Nuc.A] 1 10 stdTable rfl
    (by decide)
  exact ⟨rfl, by decide, h.1, h.2 0⟩

end ReadingFrame

namespace ReadingFrame

/-- Claim C9 counterexample: id 5 (Invertebrate Mitochondrial) lies outside
the application's enumerated set of supported tables {1, 2, 3, 11, 12}
(`genetic_code_map`), yet `find_orfs` performs no validation against that
set: the id is handed to the external translator, whose registry contains
table 5, so the scan of ATGTAA succeeds instead of failing fast. -/
theorem unsupported_code_accepted :
    bioTables 5 = some table5 ∧
      find_orfs bioTables [.A, .T, .G, .T, .A, .A] 5 1 =
        Except.ok [ORF.mk "+1" 0 3 1 ['M']] := by
  refine ⟨rfl, ?_⟩
  simp [find_orfs, bioTables, frameOrfs, translateFrame, codons, ambTranslate,
    resolutions, table5, stdTable, orfRecord, frameLabel, findMatches]
  rfl

/-- Claim C9 (amended): `find_orfs` performs no genetic-code validation of
its own; it fails — fast, with the table-resolution error and never a
silently substituted table — exactly when the translator's registry lacks
the id, and otherwise scans with exactly the requested table. -/
theorem error_iff_unknown_table (tables : Int → Option CodonTable)
    (s : List Nuc) (gc ml : Int) :
    (find_orfs tables s gc ml = Except.error (TransError.badTable gc) ↔
        tables gc = none) ∧
      ∀ tbl, tables gc = some tbl →
        find_orfs tables s gc ml =
          Except.ok (frameOrfs tbl ml s 0 ++ frameOrfs tbl ml s 1 ++
            frameOrfs tbl ml s 2) := by
  constructor
  · constructor
    · intro h
      cases htab : tables gc with
      | none => rfl
      | some tbl =>
          rw [find_orfs_ok tables s gc ml tbl htab] at h
          cases h
    · intro h
      exact find_orfs_err tables s gc ml h
  · intro tbl htab
    exact find_orfs_ok tables s gc ml tbl htab

/-- Claim C9 (amended) witness: id 7 is absent from the registry (NCBI
deleted tables 7-8, and Biopython does not define them), so the scan of
ATG fails fast with the bad-table error. -/
theorem error_iff_unknown_table_witness :
    bioTables 7 = none ∧
      find_orfs bioTables [.A, .T, .G] 7 10 =
        Except.error (TransError.badTable 7) :=
  ⟨rfl, (error_iff_unknown_table bioTables [.A, .T, .G] 7 10).1.mpr rfl⟩

/-- Claim C10: `find_orfs` is deterministic in its three arguments: two
invocations with identical inputs return identical, identically ordered
results.  The embedding is a pure function because the source reads and
writes no state outside its arguments. -/
theorem find_orfs_deterministic (tables : Int → Option CodonTable)
    (s1 s2 : List Nuc) (gc1 gc2 ml1 ml2 : Int)
    (hs : s1 = s2) (hgc : gc1 = gc2) (hml : ml1 = ml2) :
    find_orfs tables s1 gc1 ml1 = find_orfs tables s2 gc2 ml2 := by
  rw [hs, hgc, hml]

/-- Claim C10 witness: two invocations on ATGTAA with the standard code
agree. -/
theorem find_orfs_deterministic_witness :
    find_orfs bioTables [.A, .T, .G, .T, .A, .A] 1 1 =
      find_orfs bioTables [.A, .T, .G, .T, .A, .A] 1 1 :=
  find_orfs_deterministic bioTables [.A, .T, .G, .T, .A, .A]
    [.A, .T, .G, .T, .A, .A] 1 1 1 1 rfl rfl rfl

end ReadingFrame
